import Mathlib

/-!
# Shell.io: the command interpretation and dispatch pipeline of `src/main.c`

A shallow embedding of the shell's tokenizer, alias table, history log,
builtins, redirection rewriter, pipeline composer, dispatcher and read-loop
body, followed by the properties proved about them.

Modelling conventions.

* A C string is the list of its characters up to (not including) the
  terminating NUL: `CStr := List Char`.  An argument vector is the list of its
  strings, without the closing NULL entry.
* The process-wide globals (`history`, `history_count`, `last_command`,
  `aliases`, `alias_count`) are the fields of `Shell`; every function takes
  the state and returns the new one.  `history_count` and `alias_count` are
  the lengths of the two lists.
* Everything the program does to the outside world (text written to the
  terminal, `system`, `remove`, `_chdir`, `SetConsoleTextAttribute`) is
  appended, in order, to the event trace `Shell.out`.  The one answer of the
  host that the program looks at, whether `_chdir` succeeded, is the `Host`
  parameter.
* Strings are unbounded lists: the capacity of the fixed `char[1024]` and
  `char[512]` buffers, and what an overrun would do to memory, is outside this
  embedding, as are failures of `malloc`.
* `lsh_execute` calls itself for `!!` and for aliases, with nothing in the
  source bounding the depth.  The model takes a recursion budget and answers
  `none` in place of a status when the budget is used up; the trace collected
  so far is kept.
-/

namespace Shell_io

/-- A C string: its characters up to the terminating NUL. -/
abbrev CStr := List Char

/-! ## Constants (`main.c` lines 10-14) -/

def LSH_RL_BUFSIZE : Nat := 1024
def LSH_TOK_BUFSIZE : Nat := 64
def LSH_TOK_DELIM : CStr := [' ', '\t', '\r', '\n']
def MAX_HISTORY : Nat := 100
def MAX_ALIASES : Nat := 50

/-! ## Tokenizer (`lsh_split_line`, lines 73-101) -/

/-- Membership of a character in `LSH_TOK_DELIM`. -/
def is_delim (c : Char) : Bool := LSH_TOK_DELIM.contains c

/-- The C library `strtok` with delimiter set `LSH_TOK_DELIM`, as a function of
the text still to be scanned: skip leading delimiters; at the end of the text
there is no token; otherwise the token runs up to the next delimiter (which
`strtok` overwrites with NUL) and scanning resumes just after it. -/
def strtok (s : CStr) : Option (CStr × CStr) :=
  match s.dropWhile is_delim with
  | [] => none
  | c :: cs =>
    some ((c :: cs).takeWhile (fun x => !is_delim x),
          ((c :: cs).dropWhile (fun x => !is_delim x)).drop 1)

/-- The `while (token != NULL)` loop of `lsh_split_line`.  Every call of
`strtok` that yields a token consumes at least one character, so
`length + 1` rounds always reach the end of the text. -/
def lsh_split_loop : Nat → CStr → List CStr
  | 0, _ => []
  | n + 1, s =>
    match strtok s with
    | none => []
    | some (token, rest) => token :: lsh_split_loop n rest

/-- The argument vector of a line (without its terminating NULL entry). -/
def lsh_split_line (line : CStr) : List CStr :=
  lsh_split_loop (line.length + 1) line

/-! ## State and effects -/

/-- One entry of the alias table (`struct Alias`, lines 22-25). -/
structure Alias where
  name : CStr
  command : CStr
deriving DecidableEq, Repr

/-- An observable action of the process. -/
inductive Event where
  /-- Text written to standard output by `printf`. -/
  | printf (text : CStr)
  /-- Text written to standard error by `fprintf (stderr, ...)`. -/
  | eprintf (text : CStr)
  /-- A call `perror (tag)`. -/
  | perror (tag : CStr)
  /-- A call of the host command executor, `system (command)`. -/
  | system (command : CStr)
  /-- A call `remove (path)`. -/
  | remove (path : CStr)
  /-- A call `_chdir (path)`. -/
  | chdir (path : CStr)
  /-- A call `SetConsoleTextAttribute (stdout, attribute)`. -/
  | set_attribute (attr : Nat)
deriving DecidableEq, Repr

/-- The global variables of `main.c` (lines 16-27) and the trace of effects. -/
structure Shell where
  /-- The entries `history[0 .. history_count)`. -/
  history : List CStr
  /-- The variable `last_command`; `none` is the NULL pointer. -/
  last_command : Option CStr
  /-- The entries `aliases[0 .. alias_count)`. -/
  aliases : List Alias
  /-- Effects performed so far, oldest first. -/
  out : List Event
deriving DecidableEq, Repr

/-- Append one effect to the trace. -/
def Shell.emit (s : Shell) (e : Event) : Shell :=
  { s with out := s.out ++ [e] }

/-- Append several effects to the trace, in order. -/
def Shell.emits (s : Shell) (es : List Event) : Shell :=
  { s with out := s.out ++ es }

/-- The answers of the host that the program inspects. -/
structure Host where
  /-- Whether `_chdir (path)` returns 0. -/
  chdir_ok : CStr → Bool

/-- The globals as initialised at lines 17-27: everything empty. -/
def initial_shell : Shell :=
  { history := [], last_command := none, aliases := [], out := [] }

/-- The alias table after the two defaults of `main` (lines 552-559). -/
def startup_aliases : List Alias :=
  [{ name := "ll".toList, command := "dir".toList },
   { name := "ls".toList, command := "dir".toList }]

/-- The state in which `main` enters `lsh_loop` (banner output left out). -/
def startup_shell : Shell :=
  { initial_shell with aliases := startup_aliases }

/-- The apostrophe. -/
def apostrophe : Char := Char.ofNat 39

/-- The double quote. -/
def dquote : Char := Char.ofNat 34

/-! ## Console attribute bits (from `windows.h`) -/

def FOREGROUND_BLUE : Nat := 1
def FOREGROUND_GREEN : Nat := 2
def FOREGROUND_RED : Nat := 4
def FOREGROUND_INTENSITY : Nat := 8

/-- The white attribute the shell resets to, `RED | GREEN | BLUE`. -/
def white : Nat := FOREGROUND_RED ||| FOREGROUND_GREEN ||| FOREGROUND_BLUE

/-! ## History log (`add_to_history`, lines 130-142) -/

/-- Record a line: append while there is room, otherwise move entries
`1 .. MAX_HISTORY - 1` down by one and store the line in the last slot. -/
def add_to_history (s : Shell) (line : CStr) : Shell :=
  if s.history.length < MAX_HISTORY then
    { s with history := s.history ++ [line] }
  else
    { s with history := (s.history.drop 1).take (MAX_HISTORY - 1) ++ [line] }

/-! ## Alias lookup (`expand_alias`, lines 162-169) -/

/-- The `for` loop of `expand_alias`: `some r` when it returns the stored
replacement `r` of the first entry whose name is `strcmp`-equal to the command,
`none` when the loop runs to its end. -/
def expand_alias_scan : List Alias → CStr → Option CStr
  | [], _ => none
  | a :: rest, command =>
    if command = a.name then some a.command else expand_alias_scan rest command

/-- The string `expand_alias` returns. -/
def expand_alias (aliases : List Alias) (command : CStr) : CStr :=
  match expand_alias_scan aliases command with
  | some replacement => replacement
  | none => command

/-- The pointer test `expanded != args[0]` of `lsh_execute` (line 465).
`expand_alias` returns its own argument pointer only when the loop finds
nothing; a stored replacement is separate storage, so the pointers differ
exactly when an entry was found, whatever the two strings contain. -/
def expanded_differs (aliases : List Alias) (command : CStr) : Bool :=
  (expand_alias_scan aliases command).isSome

/-! ## Builtin commands (lines 103-128 and 171-326)

Every handler has the shape of the C handlers, `int (*) (char **)`: it reads
the argument vector and the globals and returns the continuation signal. -/

/-- The names of the builtin commands, in table order (lines 106-114). -/
def builtin_str : List CStr :=
  ["cd".toList, "help".toList, "exit".toList, "history".toList,
   "clear".toList, "color".toList, "alias".toList]

/-- The builtin `cd` (lines 174-184). -/
def lsh_cd (host : Host) (s : Shell) (args : List CStr) : Shell × Int :=
  match args[1]? with
  | none =>
    (s.emit (.eprintf ("lsh: expected argument to ".toList ++ [dquote] ++ "cd".toList ++
        [dquote] ++ "\n".toList)), 1)
  | some dir =>
    if host.chdir_ok dir then (s.emit (.chdir dir), 1)
    else ((s.emit (.chdir dir)).emit (.perror "lsh".toList), 1)

/-- The builtin `help` (lines 186-209). -/
def lsh_help (_host : Host) (s : Shell) (_args : List CStr) : Shell × Int :=
  (s.emits
    ([.set_attribute (FOREGROUND_BLUE ||| FOREGROUND_INTENSITY),
      .printf "=== Advanced Windows Shell ===\n".toList,
      .set_attribute white,
      .printf "Type program names and arguments, and hit enter.\n".toList,
      .printf "Special features:\n".toList,
      .printf "  !! - repeat last command\n".toList,
      .printf "  > file - redirect output to file\n".toList,
      .printf "  < file - redirect input from file\n".toList,
      .printf "  cmd1 | cmd2 - pipe output from cmd1 to cmd2\n\n".toList,
      .printf "The following are built in:\n".toList] ++
     builtin_str.map (fun name => .printf ("  ".toList ++ name ++ "\n".toList)) ++
     [.printf ("\nUse ".toList ++ [apostrophe] ++ "help <command>".toList ++ [apostrophe] ++
        " for information on other programs.\n".toList)]), 1)

/-- The builtin `exit` (lines 211-230): every history entry, every alias entry
and the last command are released, then the terminal signal 0 is returned.
Released storage is modelled as storage that is no longer there. -/
def lsh_exit (_host : Host) (s : Shell) (_args : List CStr) : Shell × Int :=
  ({ history := [], last_command := none, aliases := [],
     out := s.out ++ [.printf "Goodbye!\n".toList] }, 0)

/-- The conversion `%3d` of `printf` for a natural number. -/
def format_3d (n : Nat) : CStr :=
  List.replicate (3 - (Nat.repr n).length) ' ' ++ (Nat.repr n).toList

/-- The `for` loop of `lsh_history`: one line per entry, numbered from `i + 1`. -/
def lsh_history_lines : Nat → List CStr → List Event
  | _, [] => []
  | i, entry :: rest =>
    .printf (format_3d (i + 1) ++ "  ".toList ++ entry ++ "\n".toList) ::
      lsh_history_lines (i + 1) rest

/-- The builtin `history` (lines 232-244). -/
def lsh_history (_host : Host) (s : Shell) (_args : List CStr) : Shell × Int :=
  (s.emits
    ([.set_attribute (FOREGROUND_BLUE ||| FOREGROUND_INTENSITY),
      .printf "Command History:\n".toList,
      .set_attribute white] ++ lsh_history_lines 0 s.history), 1)

/-- The builtin `clear` (lines 246-250). -/
def lsh_clear (_host : Host) (s : Shell) (_args : List CStr) : Shell × Int :=
  (s.emit (.system "cls".toList), 1)

/-- The C library `isspace` in the "C" locale. -/
def isspace (c : Char) : Bool :=
  c = ' ' || c = '\t' || c = '\n' || c = Char.ofNat 11 || c = Char.ofNat 12 || c = '\r'

/-- The value of a decimal digit. -/
def digit_value (c : Char) : Nat := c.toNat - '0'.toNat

/-- The digit loop of `atoi`: consume leading decimal digits, stop at the
first other character. -/
def atoi_digits : CStr → Nat → Nat
  | [], acc => acc
  | c :: rest, acc => if c.isDigit then atoi_digits rest (10 * acc + digit_value c) else acc

/-- Bring a value into the range of `int`, as the Microsoft runtime does for
`atoi` (`INT_MAX` and `INT_MIN` on overflow). -/
def clamp_int (v : Int) : Int :=
  if v > 2147483647 then 2147483647 else if v < -2147483648 then -2147483648 else v

/-- The C library `atoi`: skip white space, read an optional sign, then the
leading decimal digits; whatever follows the digits is ignored, and a string
with no digits there gives 0. -/
def atoi (s : CStr) : Int :=
  match s.dropWhile isspace with
  | '-' :: rest => clamp_int (-(atoi_digits rest 0 : Int))
  | '+' :: rest => clamp_int (atoi_digits rest 0)
  | rest => clamp_int (atoi_digits rest 0)

/-- The `switch` of `lsh_color` (lines 263-274): the attribute of a colour
code, `none` for the `default` branch. -/
def color_attribute (color : Int) : Option Nat :=
  if color = 1 then some (FOREGROUND_BLUE ||| FOREGROUND_INTENSITY)
  else if color = 2 then some (FOREGROUND_GREEN ||| FOREGROUND_INTENSITY)
  else if color = 3 then some (FOREGROUND_BLUE ||| FOREGROUND_GREEN ||| FOREGROUND_INTENSITY)
  else if color = 4 then some (FOREGROUND_RED ||| FOREGROUND_INTENSITY)
  else if color = 5 then some (FOREGROUND_RED ||| FOREGROUND_BLUE ||| FOREGROUND_INTENSITY)
  else if color = 6 then some (FOREGROUND_RED ||| FOREGROUND_GREEN ||| FOREGROUND_INTENSITY)
  else if color = 7 then some (FOREGROUND_RED ||| FOREGROUND_GREEN ||| FOREGROUND_BLUE)
  else none

/-- The builtin `color` (lines 252-279). -/
def lsh_color (_host : Host) (s : Shell) (args : List CStr) : Shell × Int :=
  match args[1]? with
  | none =>
    (s.emits [.printf "Usage: color <number>\n".toList,
      .printf "Colors: 1=Blue, 2=Green, 3=Cyan, 4=Red, 5=Purple, 6=Yellow, 7=White\n".toList], 1)
  | some arg1 =>
    match color_attribute (atoi arg1) with
    | none => (s.emit (.printf "Invalid color code. Use 1-7.\n".toList), 1)
    | some attr => (s.emits [.set_attribute attr, .printf "Color changed!\n".toList], 1)

/-- The line `printf ("%s=(apostrophe)%s(apostrophe)\n", name, command)` with a leading label. -/
def alias_text (label : CStr) (name command : CStr) : CStr :=
  label ++ name ++ ['=', apostrophe] ++ command ++ [apostrophe, '\n']

/-- The builtin `alias` (lines 281-326).  With no argument it lists the table;
with one argument it prints the usage text; with two or more it appends an
entry while the table has room.  When the first argument contains `=`, the
name is the text before the first `=` and the command the text after it;
otherwise the command is the second argument. -/
def lsh_alias (_host : Host) (s : Shell) (args : List CStr) : Shell × Int :=
  match args[1]? with
  | none =>
    (s.emits
      ([.set_attribute (FOREGROUND_GREEN ||| FOREGROUND_INTENSITY),
        .printf "Current aliases:\n".toList,
        .set_attribute white] ++
       s.aliases.map (fun a => .printf (alias_text [] a.name a.command))), 1)
  | some arg1 =>
    match args[2]? with
    | none =>
      (s.emits [.printf "Usage: alias <name> <command>\n".toList,
        .printf "       alias <name>=<command>\n".toList], 1)
    | some arg2 =>
      let name := if '=' ∈ arg1 then arg1.takeWhile (fun c => c != '=') else arg1
      let command := if '=' ∈ arg1 then (arg1.dropWhile (fun c => c != '=')).drop 1 else arg2
      if s.aliases.length < MAX_ALIASES then
        ({ s with aliases := s.aliases ++ [{ name := name, command := command }],
                  out := s.out ++ [.printf (alias_text "Alias created: ".toList name command)] }, 1)
      else
        (s.emit (.printf "Maximum number of aliases reached.\n".toList), 1)

/-- The handlers, in the order of `builtin_str` (lines 116-124). -/
def builtin_func : List (Host → Shell → List CStr → Shell × Int) :=
  [lsh_cd, lsh_help, lsh_exit, lsh_history, lsh_clear, lsh_color, lsh_alias]

/-- The function `lsh_num_builtins` (lines 126-128). -/
def lsh_num_builtins : Nat := builtin_str.length

/-! ## Redirection rewriter (`handle_redirection`, lines 328-373) -/

/-- The scan loop of `handle_redirection` (lines 336-354), from index `j`
with the remaining arguments `args[j ..]` and the command text built so far.
It returns the command text, the output file and the input file.  An operator
with a following argument records that argument and leaves the loop; an
operator in last position is skipped; any other token is added to the command
text, after a space unless it is `args[0]`. -/
def handle_redirection_scan : Nat → List CStr → CStr → CStr × Option CStr × Option CStr
  | _, [], command => (command, none, none)
  | j, arg :: rest, command =>
    if arg = ['>'] then
      match rest with
      | file :: _ => (command, some file, none)
      | [] => handle_redirection_scan (j + 1) rest command
    else if arg = ['<'] then
      match rest with
      | file :: _ => (command, none, some file)
      | [] => handle_redirection_scan (j + 1) rest command
    else
      handle_redirection_scan (j + 1) rest
        ((if j > 0 then command ++ [' '] else command) ++ arg)

/-- The string `full_command` of `handle_redirection` (lines 356-368). -/
def redirection_command (args : List CStr) : CStr :=
  match handle_redirection_scan 0 args [] with
  | (command, output_file, input_file) =>
    let with_output :=
      match output_file with
      | some file => command ++ " > ".toList ++ file
      | none => command
    match input_file with
    | some file => with_output ++ " < ".toList ++ file
    | none => with_output

/-- The function `handle_redirection`: the rewritten command goes to the host
executor, whose status is dropped, and 1 is returned. -/
def handle_redirection (s : Shell) (args : List CStr) : Shell × Int :=
  (s.emit (.system (redirection_command args)), 1)

/-! ## Pipeline composer (`handle_pipeline`, lines 375-406) -/

/-- The name of the intermediate file. -/
def temp_file : CStr := "temp_pipe.txt".toList

/-- The function `handle_pipeline`.  Besides the state and the returned value
it gives back the caller's line buffer as the function leaves it: the first
`|` has been overwritten with NUL, so the buffer now reads as the text before
that character. -/
def handle_pipeline (s : Shell) (line : CStr) : Shell × Int × CStr :=
  if '|' ∈ line then
    let before := line.takeWhile (fun c => c != '|')
    let after := (line.dropWhile (fun c => c != '|')).drop 1
    let cmd1 := before.dropWhile (fun c => c == ' ')
    let cmd2 := after.dropWhile (fun c => c == ' ')
    let full_cmd1 := cmd1 ++ " > ".toList ++ temp_file
    let full_cmd2 := cmd2 ++ " < ".toList ++ temp_file
    (s.emits [.system full_cmd1, .system full_cmd2, .remove temp_file], 1, before)
  else
    (s, 0, line)

/-! ## External launch (`lsh_launch`, lines 408-437) -/

/-- The test of lines 411-417: some argument is exactly `>` or `<`. -/
def has_redirection (args : List CStr) : Bool :=
  args.any (fun arg => arg = ['>'] || arg = ['<'])

/-- The loop of lines 427-433: every argument is appended to the command text,
followed by a space when another argument comes after it. -/
def lsh_launch_command : List CStr → CStr → CStr
  | [], command => command
  | [arg], command => command ++ arg
  | arg :: next :: rest, command => lsh_launch_command (next :: rest) (command ++ arg ++ [' '])

/-- The function `lsh_launch`. -/
def lsh_launch (s : Shell) (args : List CStr) : Shell × Int :=
  if has_redirection args then handle_redirection s args
  else (s.emit (.system (lsh_launch_command args [])), 1)

/-! ## Dispatcher (`lsh_execute`, lines 439-487) -/

/-- The loop of lines 480-484: the handler of the first table entry whose name
equals the command name. -/
def find_builtin : List CStr → List (Host → Shell → List CStr → Shell × Int) → CStr →
    Option (Host → Shell → List CStr → Shell × Int)
  | name :: names, handler :: handlers, command =>
    if command = name then some handler else find_builtin names handlers command
  | _, _, _ => none

/-- The text `expanded_line` of lines 467-472: the replacement followed by
every remaining argument, each after one space. -/
def expanded_line (expanded : CStr) (rest : List CStr) : CStr :=
  rest.foldl (fun line arg => line ++ [' '] ++ arg) expanded

/-- The function `lsh_execute`, with a budget for its recursive calls.  The
status is `none` when a recursive call was due and the budget was spent. -/
def lsh_execute (host : Host) : Nat → Shell → List CStr → Shell × Option Int
  | _, s, [] => (s, some 1)
  | fuel, s, arg0 :: rest =>
    if arg0 = ['!', '!'] then
      match s.last_command with
      | some last =>
        let s1 := s.emit (.printf ("Executing: ".toList ++ last ++ "\n".toList))
        match fuel with
        | 0 => (s1, none)
        | fuel + 1 => lsh_execute host fuel s1 (lsh_split_line last)
      | none => (s.emit (.printf "No previous command found.\n".toList), some 1)
    else if expanded_differs s.aliases arg0 then
      match fuel with
      | 0 => (s, none)
      | fuel + 1 =>
        lsh_execute host fuel s
          (lsh_split_line (expanded_line (expand_alias s.aliases arg0) rest))
    else
      match find_builtin builtin_str builtin_func arg0 with
      | some handler =>
        match handler host s (arg0 :: rest) with
        | (s1, status) => (s1, some status)
      | none =>
        match lsh_launch s (arg0 :: rest) with
        | (s1, status) => (s1, some status)

/-! ## Read loop (`lsh_loop`, lines 489-528) -/

/-- One pass through the body of the `do ... while (status)` loop for the line
that `lsh_read_line` returned.  The result is the new state and what the pass
did to the variable `status`: `none` when the pass ended in `continue` (empty
line, pipeline) and left `status` alone, `some r` when it assigned the result
`r` of `lsh_execute`. -/
def lsh_loop_body (host : Host) (fuel : Nat) (s : Shell) (line : CStr) :
    Shell × Option (Option Int) :=
  if line.length = 0 then (s, none)
  else if '|' ∈ line then
    match handle_pipeline s line with
    | (s1, _, line1) =>
      ({ add_to_history s1 line1 with last_command := some line1 }, none)
  else
    let s1 := add_to_history s line
    let s2 := { s1 with last_command := some line }
    match lsh_execute host fuel s2 (lsh_split_line line) with
    | (s3, status) => (s3, some status)

/-! ## Specification-side definitions -/

/-- The maximal runs of non-delimiter characters of a line, in the words of
the specification: cut the line at every delimiter character and keep the
pieces that are not empty, in their order. -/
def maximal_runs (line : CStr) : List CStr :=
  (line.splitOnP is_delim).filter (fun t => !t.isEmpty)

/-! # Properties

## Tokenizer -/

theorem splitOnP_head_run (p : Char → Bool) (xs : List Char) :
    xs.splitOnP p = xs.takeWhile (fun x => !p x) ::
      (match xs.dropWhile (fun x => !p x) with
       | [] => []
       | _ :: ys => ys.splitOnP p) := by
  induction xs with
  | nil => simp
  | cons x xs ih =>
    rw [List.splitOnP_cons]
    by_cases hx : p x = true
    · simp [hx]
    · simp only [hx, if_false]
      rw [ih]
      simp [List.takeWhile_cons, List.dropWhile_cons, hx]

theorem maximal_runs_nil : maximal_runs [] = [] := by
  simp [maximal_runs]

theorem maximal_runs_cons_delim (d : Char) (xs : CStr) (hd : is_delim d = true) :
    maximal_runs (d :: xs) = maximal_runs xs := by
  simp [maximal_runs, List.splitOnP_cons, hd]

theorem maximal_runs_dropWhile (xs : CStr) :
    maximal_runs (xs.dropWhile is_delim) = maximal_runs xs := by
  induction xs with
  | nil => rfl
  | cons x xs ih =>
    by_cases hx : is_delim x = true
    · rw [List.dropWhile_cons_of_pos hx, ih, maximal_runs_cons_delim x xs hx]
    · rw [List.dropWhile_cons_of_neg hx]

theorem maximal_runs_cons_token (c : Char) (cs : CStr) (hc : is_delim c = false) :
    maximal_runs (c :: cs) =
      (c :: cs).takeWhile (fun x => !is_delim x) ::
        maximal_runs (((c :: cs).dropWhile (fun x => !is_delim x)).drop 1) := by
  have h := splitOnP_head_run is_delim (c :: cs)
  unfold maximal_runs
  rw [h]
  simp only [List.takeWhile_cons, hc, Bool.not_false, if_true, List.filter_cons, List.isEmpty_cons]
  congr 1
  cases hd : List.dropWhile (fun x => !is_delim x) (c :: cs) with
  | nil => simp
  | cons y ys => simp

theorem dropWhile_head_false (p : Char → Bool) (s : CStr) (c : Char) (cs : CStr)
    (h : s.dropWhile p = c :: cs) : p c = false := by
  have := List.head_dropWhile_not p s (by rw [h]; simp)
  simpa [h] using this

theorem dropWhile_length_le (p : Char → Bool) (s : CStr) : (s.dropWhile p).length ≤ s.length := by
  induction s with
  | nil => simp
  | cons x xs ih =>
    by_cases hx : p x = true
    · rw [List.dropWhile_cons_of_pos hx]; simp; omega
    · rw [List.dropWhile_cons_of_neg hx]

theorem filter_dropWhile_delim (s : CStr) :
    (s.dropWhile is_delim).filter (fun c => !is_delim c) = s.filter (fun c => !is_delim c) := by
  induction s with
  | nil => rfl
  | cons x xs ih =>
    by_cases hx : is_delim x = true
    · rw [List.dropWhile_cons_of_pos hx, ih]; simp [hx]
    · rw [List.dropWhile_cons_of_neg hx]

theorem filter_token_rest (s : CStr) :
    s.filter (fun c => !is_delim c) =
      s.takeWhile (fun c => !is_delim c) ++
        ((s.dropWhile (fun c => !is_delim c)).drop 1).filter (fun c => !is_delim c) := by
  induction s with
  | nil => rfl
  | cons x xs ih =>
    by_cases hx : is_delim x = true
    · simp [hx]
    · simp only [Bool.not_eq_true] at hx
      simp only [List.filter_cons, List.takeWhile_cons, List.dropWhile_cons, hx, Bool.not_false,
        if_true, List.cons_append]
      rw [← ih]

theorem strtok_none (s : CStr) (h : s.dropWhile is_delim = []) : strtok s = none := by
  simp [strtok, h]

theorem strtok_some (s : CStr) (c : Char) (cs : CStr) (h : s.dropWhile is_delim = c :: cs) :
    strtok s = some ((c :: cs).takeWhile (fun x => !is_delim x),
      ((c :: cs).dropWhile (fun x => !is_delim x)).drop 1) := by
  simp [strtok, h]

theorem lsh_split_loop_runs (n : Nat) : ∀ s : CStr, s.length < n →
    lsh_split_loop n s = maximal_runs s := by
  induction n with
  | zero => intro s h; omega
  | succ n ih =>
    intro s hs
    cases hd : s.dropWhile is_delim with
    | nil =>
      rw [lsh_split_loop, strtok_none s hd, ← maximal_runs_dropWhile, hd, maximal_runs_nil]
    | cons c cs =>
      have hc := dropWhile_head_false is_delim s c cs hd
      have hlen := dropWhile_length_le is_delim s
      have hlen2 := dropWhile_length_le (fun x => !is_delim x) (c :: cs)
      rw [lsh_split_loop, strtok_some s c cs hd, ← maximal_runs_dropWhile s, hd,
        maximal_runs_cons_token c cs hc]
      simp only
      rw [ih]
      rw [hd] at hlen
      simp only [List.length_drop, List.length_cons] at *
      omega

theorem lsh_split_loop_flatten (n : Nat) : ∀ s : CStr, s.length < n →
    (lsh_split_loop n s).flatten = s.filter (fun c => !is_delim c) := by
  induction n with
  | zero => intro s h; omega
  | succ n ih =>
    intro s hs
    cases hd : s.dropWhile is_delim with
    | nil =>
      rw [lsh_split_loop, strtok_none s hd, ← filter_dropWhile_delim, hd]; rfl
    | cons c cs =>
      have hlen := dropWhile_length_le is_delim s
      have hlen2 := dropWhile_length_le (fun x => !is_delim x) (c :: cs)
      rw [lsh_split_loop, strtok_some s c cs hd, ← filter_dropWhile_delim s, hd,
        filter_token_rest (c :: cs)]
      simp only [List.flatten_cons]
      rw [ih]
      rw [hd] at hlen
      simp only [List.length_drop, List.length_cons] at *
      omega

theorem lsh_split_loop_token (n : Nat) : ∀ (s t : CStr), t ∈ lsh_split_loop n s →
    t ≠ [] ∧ ∀ c ∈ t, is_delim c = false := by
  induction n with
  | zero => intro s t h; simp [lsh_split_loop] at h
  | succ n ih =>
    intro s t ht
    cases hd : s.dropWhile is_delim with
    | nil => rw [lsh_split_loop, strtok_none s hd] at ht; simp at ht
    | cons c cs =>
      have hc := dropWhile_head_false is_delim s c cs hd
      rw [lsh_split_loop, strtok_some s c cs hd] at ht
      simp only [List.mem_cons] at ht
      rcases ht with rfl | ht
      · constructor
        · simp [List.takeWhile_cons, hc]
        · intro x hx
          have := List.mem_takeWhile_imp hx
          simpa using this
      · exact ih _ t ht

theorem lsh_split_line_runs (line : CStr) : lsh_split_line line = maximal_runs line :=
  lsh_split_loop_runs (line.length + 1) line (Nat.lt_succ_self _)

/-- C1: for every line, `lsh_split_line` returns exactly the maximal runs of
non-delimiter characters (the delimiters being space, tab, carriage return and
newline), in left-to-right order; no token contains a delimiter, and the
tokens concatenated are the line with every delimiter removed. -/
theorem lsh_split_line_maximal_runs (line : CStr) :
    (∀ c : Char, is_delim c = true ↔ (c = ' ' ∨ c = '\t' ∨ c = '\r' ∨ c = '\n')) ∧
    lsh_split_line line = maximal_runs line ∧
    (∀ t ∈ lsh_split_line line, ∀ c ∈ t, is_delim c = false) ∧
    (lsh_split_line line).flatten = line.filter (fun c => !is_delim c) := by
  refine ⟨?_, lsh_split_line_runs line, ?_, ?_⟩
  · intro c
    simp [is_delim, LSH_TOK_DELIM]
  · intro t ht
    exact (lsh_split_loop_token _ line t ht).2
  · exact lsh_split_loop_flatten (line.length + 1) line (Nat.lt_succ_self _)

/-- C2: `lsh_split_line` never produces an empty token, and the argument
vector is empty exactly when every character of the line is a delimiter (in
particular for the empty line). -/
theorem lsh_split_line_no_empty_token (line : CStr) :
    (∀ t ∈ lsh_split_line line, t ≠ []) ∧
    (lsh_split_line line = [] ↔ ∀ c ∈ line, is_delim c = true) ∧
    lsh_split_line [] = [] := by
  refine ⟨fun t ht => (lsh_split_loop_token _ line t ht).1, ?_, rfl⟩
  have hflat := lsh_split_loop_flatten (line.length + 1) line (Nat.lt_succ_self _)
  constructor
  · intro h c hc
    have h0 : line.filter (fun c => !is_delim c) = [] := by
      rw [← hflat]
      show (lsh_split_line line).flatten = []
      rw [h]; rfl
    by_contra hcd
    have : c ∈ line.filter (fun c => !is_delim c) := by
      simp only [List.mem_filter]
      exact ⟨hc, by simpa using hcd⟩
    rw [h0] at this
    simp at this
  · intro h
    have hd : line.dropWhile is_delim = [] := by
      rw [List.dropWhile_eq_nil_iff]
      exact h
    show lsh_split_loop (line.length + 1) line = []
    rw [lsh_split_loop, strtok_none line hd]

/-! ## Redirection rewriter -/

/-- Joining with single spaces, one token at a time. -/
theorem intercalate_space_cons (b : CStr) (bs : List CStr) :
    List.intercalate [' '] (b :: bs) = b ++ (bs.map (fun a => ' ' :: a)).flatten := by
  induction bs generalizing b with
  | nil => simp [List.intercalate]
  | cons c cs ih =>
    have := ih c
    simp only [List.intercalate] at this ⊢
    simp only [List.intersperse_cons_cons, List.flatten_cons, List.map_cons]
    rw [this]
    simp

theorem takeWhile_not_bar_append (c1 tail : CStr) (h : '|' ∉ c1) :
    (c1 ++ '|' :: tail).takeWhile (fun c => c != '|') = c1 := by
  induction c1 with
  | nil => simp
  | cons x xs ih =>
    have hx : x ≠ '|' := fun e => h (by simp [e])
    have hxs : '|' ∉ xs := fun e => h (List.mem_cons_of_mem _ e)
    simp [List.takeWhile_cons, hx, ih hxs]

theorem dropWhile_not_bar_append (c1 tail : CStr) (h : '|' ∉ c1) :
    (c1 ++ '|' :: tail).dropWhile (fun c => c != '|') = '|' :: tail := by
  induction c1 with
  | nil => simp
  | cons x xs ih =>
    have hx : x ≠ '|' := fun e => h (by simp [e])
    have hxs : '|' ∉ xs := fun e => h (List.mem_cons_of_mem _ e)
    simp [List.dropWhile_cons, hx, ih hxs]

/-- For every line `c1 ++ " | " ++ c2` of the shape the pipeline claim speaks
of, the first command handed to the host executor keeps the space that
stood before the `|`: it is `c1 ++ "  > temp_pipe.txt"`, with two spaces. -/
theorem handle_pipeline_commands (s : Shell) (c1 c2 : CStr) (hbar : '|' ∉ c1)
    (hne : c1 ≠ []) (hlead1 : c1.head? ≠ some ' ') (hlead2 : c2.head? ≠ some ' ') :
    handle_pipeline s (c1 ++ " | ".toList ++ c2) =
      (s.emits [.system (c1 ++ "  > temp_pipe.txt".toList),
                .system (c2 ++ " < temp_pipe.txt".toList),
                .remove "temp_pipe.txt".toList], 1, c1 ++ [' ']) := by
  have hline : c1 ++ " | ".toList ++ c2 = (c1 ++ [' ']) ++ '|' :: (' ' :: c2) := by
    simp
  have hbar2 : '|' ∉ c1 ++ [' '] := by
    simp [hbar]
  have hd1 : (c1 ++ [' ']).dropWhile (fun c => c == ' ') = c1 ++ [' '] := by
    cases c1 with
    | nil => exact absurd rfl hne
    | cons x xs =>
      have : x ≠ ' ' := by simpa using hlead1
      simp [List.dropWhile_cons, this]
  have hd2 : (' ' :: c2).dropWhile (fun c => c == ' ') = c2 := by
    cases c2 with
    | nil => simp
    | cons x xs =>
      have : x ≠ ' ' := by simpa using hlead2
      simp [List.dropWhile_cons, this]
  rw [hline]
  unfold handle_pipeline
  rw [if_pos (by simp)]
  simp only [takeWhile_not_bar_append _ _ hbar2, dropWhile_not_bar_append _ _ hbar2,
    List.drop_one, List.tail_cons, hd1, hd2]
  simp [temp_file]

/-- C4 (evaluation at the failing input): for the line `cat file.txt | sort`
the first command handed to the host executor is
`cat file.txt  > temp_pipe.txt`, with the space before the `|` kept, and not
`cat file.txt > temp_pipe.txt`; the second command, the removal of the file
and the returned 1 are as described. -/
theorem handle_pipeline_cat_sort :
    handle_pipeline initial_shell "cat file.txt | sort".toList =
      (initial_shell.emits [.system "cat file.txt  > temp_pipe.txt".toList,
                            .system "sort < temp_pipe.txt".toList,
                            .remove "temp_pipe.txt".toList], 1, "cat file.txt ".toList) ∧
    Event.system "cat file.txt > temp_pipe.txt".toList ∉
      (handle_pipeline initial_shell "cat file.txt | sort".toList).1.out := by
  constructor
  · rfl
  · decide

/-! ## Dispatcher and read loop -/

theorem lsh_execute_repeat_self (host : Host) (fuel : Nat) : ∀ s : Shell,
    s.last_command = some ['!', '!'] →
    lsh_execute host fuel s [['!', '!']] =
      (s.emits (List.replicate (fuel + 1) (.printf "Executing: !!\n".toList)), none) := by
  induction fuel with
  | zero =>
    intro s hs
    simp only [lsh_execute, hs, if_true]
    rfl
  | succ n ih =>
    intro s hs
    have hsplit : lsh_split_line ['!', '!'] = [['!', '!']] := by rfl
    simp only [lsh_execute, hs, if_true, hsplit]
    rw [ih _ (by simpa [Shell.emit] using hs)]
    simp [Shell.emit, Shell.emits, List.replicate_succ]

/-- C5 (evaluation at the failing input): whatever was entered before, the
line `!!` is stored as the Last Command before it is dispatched, so
`lsh_execute` replays `!!` itself: with every recursion budget the call is
still unfinished and all it has done is announce `Executing: !!`.  After
`help`, in particular, `!!` never invokes the help builtin and never returns
1, while `help` typed again does both. -/
theorem lsh_loop_body_repeat_never_returns (host : Host) (fuel : Nat) (s : Shell) :
    lsh_loop_body host fuel s ['!', '!'] =
      ({ add_to_history s ['!', '!'] with
          last_command := some ['!', '!'],
          out := s.out ++ List.replicate (fuel + 1) (.printf "Executing: !!\n".toList) },
       some none) ∧
    (lsh_loop_body host fuel
        (lsh_loop_body host fuel startup_shell "help".toList).1 "help".toList).2 =
      some (some 1) ∧
    (lsh_loop_body host fuel
        (lsh_loop_body host fuel startup_shell "help".toList).1 "!!".toList).2 =
      some none := by
  have hsplit : lsh_split_line ['!', '!'] = [['!', '!']] := by rfl
  have key : ∀ s : Shell, lsh_loop_body host fuel s ['!', '!'] =
      ({ add_to_history s ['!', '!'] with
          last_command := some ['!', '!'],
          out := s.out ++ List.replicate (fuel + 1) (.printf "Executing: !!\n".toList) },
       some none) := by
    intro s
    unfold lsh_loop_body
    rw [if_neg (by decide), if_neg (by decide), hsplit]
    simp only []
    rw [lsh_execute_repeat_self host fuel _ rfl]
    simp only [Shell.emits, add_to_history]
    split <;> rfl
  refine ⟨key s, ?_, ?_⟩
  · cases fuel <;> rfl
  · have : "!!".toList = ['!', '!'] := rfl
    rw [this, key]

/-- C6: for every argument vector whose first token is `!!`, when no Last
Command is stored `lsh_execute` (with any recursion budget) prints
`No previous command found.`, performs no other effect (nothing reaches the
host executor), leaves the alias table, the history and the Last Command as
they were, and returns the continue signal 1. -/
theorem lsh_execute_repeat_without_last (host : Host) (fuel : Nat) (s : Shell)
    (rest : List CStr) (hlast : s.last_command = none) :
    lsh_execute host fuel s (['!', '!'] :: rest) =
      ({ s with out := s.out ++ [.printf "No previous command found.\n".toList] }, some 1) ∧
    (lsh_execute host fuel s (['!', '!'] :: rest)).1.aliases = s.aliases ∧
    (lsh_execute host fuel s (['!', '!'] :: rest)).1.history = s.history ∧
    (lsh_execute host fuel s (['!', '!'] :: rest)).1.last_command = none ∧
    (∀ command, Event.system command ∈ (lsh_execute host fuel s (['!', '!'] :: rest)).1.out →
      Event.system command ∈ s.out) := by
  have h : lsh_execute host fuel s (['!', '!'] :: rest) =
      ({ s with out := s.out ++ [.printf "No previous command found.\n".toList] }, some 1) := by
    cases fuel <;> simp [lsh_execute, hlast, Shell.emit]
  rw [h]
  refine ⟨rfl, rfl, rfl, hlast, ?_⟩
  intro command hmem
  simpa using hmem

/-- The repeat operator in the initial state. -/
theorem lsh_execute_repeat_without_last_witness :
    initial_shell.last_command = none ∧
    lsh_execute ⟨fun _ => true⟩ 0 initial_shell [['!', '!']] =
      ({ initial_shell with out := [.printf "No previous command found.\n".toList] }, some 1) :=
  ⟨rfl, (lsh_execute_repeat_without_last ⟨fun _ => true⟩ 0 initial_shell [] rfl).1⟩

/-- C7 (evaluation at the failing input): for the pipeline line
`cat file.txt | sort` one pass of the loop body records `cat file.txt `, the
text before the `|`, in the history and as Last Command, not the raw line. -/
theorem lsh_loop_body_pipeline_record (host : Host) (fuel : Nat) :
    (lsh_loop_body host fuel startup_shell "cat file.txt | sort".toList).1.history =
      ["cat file.txt ".toList] ∧
    (lsh_loop_body host fuel startup_shell "cat file.txt | sort".toList).1.last_command =
      some "cat file.txt ".toList ∧
    "cat file.txt ".toList ≠ "cat file.txt | sort".toList := by
  refine ⟨rfl, rfl, by decide⟩

/-- What one pass records for a line with a `|`: the text before the first `|`. -/
theorem lsh_loop_body_pipeline_history (host : Host) (fuel : Nat) (s : Shell) (line : CStr)
    (hbar : '|' ∈ line) :
    (lsh_loop_body host fuel s line).1.history =
      (add_to_history s (line.takeWhile (fun c => c != '|'))).history ∧
    (lsh_loop_body host fuel s line).1.last_command =
      some (line.takeWhile (fun c => c != '|')) ∧
    line.takeWhile (fun c => c != '|') ≠ line := by
  have hne : line.length ≠ 0 := by
    intro h
    rw [List.length_eq_zero] at h
    simp [h] at hbar
  refine ⟨?_, ?_, ?_⟩
  · simp only [lsh_loop_body, hne, if_false, hbar, if_true, handle_pipeline]
    simp only [add_to_history, Shell.emits]
    split <;> rfl
  · simp only [lsh_loop_body, hne, if_false, hbar, if_true, handle_pipeline]
  · intro h
    have := List.mem_takeWhile_imp (h ▸ hbar)
    simp at this

/-! ## History log -/

theorem add_to_history_step (s : Shell) (line : CStr) (h : s.history.length ≤ 100) :
    (add_to_history s line).history =
      (s.history ++ [line]).drop (s.history.length + 1 - 100) := by
  unfold add_to_history
  by_cases hlt : s.history.length < MAX_HISTORY
  · rw [if_pos hlt]
    have : s.history.length + 1 - 100 = 0 := by simp only [MAX_HISTORY] at hlt; omega
    simp [this]
  · rw [if_neg hlt]
    have hlen : s.history.length = 100 := by simp only [MAX_HISTORY] at hlt; omega
    have h1 : s.history.length + 1 - 100 = 1 := by omega
    have htake : (s.history.drop 1).take (MAX_HISTORY - 1) = s.history.drop 1 := by
      apply List.take_of_length_le
      simp [MAX_HISTORY, hlen]
    simp only [htake, h1]
    rw [List.drop_append_of_le_length (by omega)]

theorem add_to_history_fold (s : Shell) (hs : s.history = []) (lines : List CStr) :
    (lines.foldl add_to_history s).history = lines.drop (lines.length - 100) := by
  induction lines using List.reverseRecOn with
  | nil => simpa using hs
  | append_singleton ls l ih =>
    rw [List.foldl_append]
    simp only [List.foldl_cons, List.foldl_nil]
    have hlen : (ls.foldl add_to_history s).history.length ≤ 100 := by
      rw [ih, List.length_drop]; omega
    rw [add_to_history_step _ _ hlen, ih]
    simp only [List.length_drop, List.length_append, List.length_singleton]
    by_cases hn : ls.length < 100
    · have h1 : ls.length - 100 = 0 := by omega
      have h2 : ls.length + 1 - 100 = 0 := by omega
      simp [h1, h2]
    · have h1 : ls.length - (ls.length - 100) + 1 - 100 = 1 := by omega
      have h2 : ls.length + 1 - 100 = (ls.length - 100) + 1 := by omega
      have e1 : List.drop (ls.length - 100) (ls ++ [l]) = List.drop (ls.length - 100) ls ++ [l] :=
        List.drop_append_of_le_length (by omega)
      have e2 : 1 ≤ (List.drop (ls.length - 100) ls).length := by
        rw [List.length_drop]; omega
      rw [h1, h2, ← List.drop_drop, e1, List.drop_append_of_le_length e2]

/-- C8: starting from an empty history, after `add_to_history` has recorded
the lines `l1 .. ln` in that order the history holds exactly the last
`min n 100` of them in their original order: all of them when `n ≤ 100`, and
for `n = 101` the 100 entries `l2 .. l101`, the first line being gone. -/
theorem add_to_history_keeps_last (s : Shell) (lines : List CStr) (hs : s.history = []) :
    (lines.foldl add_to_history s).history = lines.drop (lines.length - 100) ∧
    (lines.foldl add_to_history s).history.length = min lines.length 100 ∧
    (lines.length ≤ 100 → (lines.foldl add_to_history s).history = lines) ∧
    (∀ (l1 : CStr) (rest : List CStr), lines = l1 :: rest → rest.length = 100 →
      (lines.foldl add_to_history s).history = rest) := by
  have h := add_to_history_fold s hs lines
  refine ⟨h, ?_, ?_, ?_⟩
  · rw [h, List.length_drop]; omega
  · intro hle
    have : lines.length - 100 = 0 := by omega
    rw [h, this, List.drop_zero]
  · intro l1 rest hl hr
    have : lines.length - 100 = 1 := by rw [hl, List.length_cons, hr]
    rw [h, this, hl, List.drop_one, List.tail_cons]

/-- Two lines recorded into the empty history. -/
theorem add_to_history_keeps_last_witness :
    initial_shell.history = [] ∧
    (["dir".toList, "help".toList].foldl add_to_history initial_shell).history =
      ["dir".toList, "help".toList] :=
  ⟨rfl, (add_to_history_keeps_last initial_shell ["dir".toList, "help".toList] rfl).2.2.1
    (by decide)⟩

/-! ## Alias table -/

theorem expand_alias_scan_none (aliases : List Alias) (name : CStr)
    (h : ∀ a ∈ aliases, a.name ≠ name) : expand_alias_scan aliases name = none := by
  induction aliases with
  | nil => rfl
  | cons a rest ih =>
    have ha : name ≠ a.name := fun e => h a (List.mem_cons_self _ _) e.symm
    simp only [expand_alias_scan, ha, if_false]
    exact ih (fun b hb => h b (List.mem_cons_of_mem _ hb))

theorem expand_alias_scan_first (pre : List Alias) (a : Alias) (post : List Alias) (name : CStr)
    (hpre : ∀ b ∈ pre, b.name ≠ name) (ha : a.name = name) :
    expand_alias_scan (pre ++ a :: post) name = some a.command := by
  induction pre with
  | nil => simp [expand_alias_scan, ha]
  | cons b rest ih =>
    have hb : name ≠ b.name := fun e => hpre b (List.mem_cons_self _ _) e.symm
    simp only [List.cons_append, expand_alias_scan, hb, if_false]
    exact ih (fun c hc => hpre c (List.mem_cons_of_mem _ hc))

/-- C9: for every alias table and every name, `expand_alias` returns the
replacement of the first entry, in insertion order, whose name equals the
given name, and the name itself when no entry has that name. -/
theorem expand_alias_first_match (aliases : List Alias) (name : CStr) :
    (∀ (pre : List Alias) (a : Alias) (post : List Alias), aliases = pre ++ a :: post →
      (∀ b ∈ pre, b.name ≠ name) → a.name = name → expand_alias aliases name = a.command) ∧
    ((∀ a ∈ aliases, a.name ≠ name) → expand_alias aliases name = name) := by
  constructor
  · intro pre a post hsplit hpre ha
    rw [hsplit, expand_alias, expand_alias_scan_first pre a post name hpre ha]
  · intro h
    rw [expand_alias, expand_alias_scan_none aliases name h]

/-- Lookup of a defined and of an undefined name in the startup table. -/
theorem expand_alias_first_match_witness :
    expand_alias startup_aliases "ls".toList = "dir".toList ∧
    expand_alias startup_aliases "dir".toList = "dir".toList :=
  ⟨(expand_alias_first_match startup_aliases "ls".toList).1
      [{ name := "ll".toList, command := "dir".toList }]
      { name := "ls".toList, command := "dir".toList } [] rfl (by decide) rfl,
   (expand_alias_first_match startup_aliases "dir".toList).2 (by decide)⟩

theorem expand_alias_scan_append (xs ys : List Alias) (name : CStr) :
    expand_alias_scan (xs ++ ys) name =
      match expand_alias_scan xs name with
      | some r => some r
      | none => expand_alias_scan ys name := by
  induction xs with
  | nil => rfl
  | cons a rest ih =>
    by_cases ha : name = a.name
    · simp [expand_alias_scan, ha]
    · simp only [List.cons_append, expand_alias_scan, ha, if_false]
      exact ih

theorem expand_alias_scan_some (aliases : List Alias) (name : CStr)
    (h : ∃ a ∈ aliases, a.name = name) : ∃ r, expand_alias_scan aliases name = some r := by
  induction aliases with
  | nil => simp at h
  | cons a rest ih =>
    by_cases ha : name = a.name
    · exact ⟨a.command, by simp [expand_alias_scan, ha]⟩
    · simp only [expand_alias_scan, ha, if_false]
      apply ih
      rcases h with ⟨b, hb, hbn⟩
      rcases List.mem_cons.mp hb with rfl | hb
      · exact absurd hbn.symm ha
      · exact ⟨b, hb, hbn⟩

theorem lsh_alias_appends (host : Host) (s : Shell) (name command : CStr)
    (hroom : s.aliases.length < MAX_ALIASES) (heq : '=' ∉ name) :
    (lsh_alias host s ["alias".toList, name, command]).1.aliases =
      s.aliases ++ [{ name := name, command := command }] := by
  simp [lsh_alias, hroom, heq]

/-- C10 (counterexample): on the startup table, which is below capacity,
defining `ll` as `type` leaves `expand_alias` answering `dir` for `ll`, the
replacement of the earlier entry; and defining the name token `a=b` with
command `c` stores the entry `a` with replacement `b`, so that `expand_alias`
returns `a=b` itself. -/
theorem lsh_alias_define_not_resolved :
    startup_shell.aliases.length < MAX_ALIASES ∧
    expand_alias
        (lsh_alias ⟨fun _ => true⟩ startup_shell
          ["alias".toList, "ll".toList, "type".toList]).1.aliases "ll".toList = "dir".toList ∧
    "dir".toList ≠ "type".toList ∧
    expand_alias
        (lsh_alias ⟨fun _ => true⟩ startup_shell
          ["alias".toList, "a=b".toList, "c".toList]).1.aliases "a=b".toList = "a=b".toList ∧
    "a=b".toList ≠ "c".toList ∧
    ¬ (∀ (host : Host) (s : Shell) (name command : CStr), s.aliases.length < MAX_ALIASES →
        expand_alias (lsh_alias host s ["alias".toList, name, command]).1.aliases name =
          command) := by
  refine ⟨by decide, by rfl, by decide, by rfl, by decide, ?_⟩
  intro h
  have h1 := h ⟨fun _ => true⟩ startup_shell "ll".toList "type".toList (by decide)
  exact absurd h1 (by decide)

/-- C10 (amended): for every name without `=`, every command and every alias
table below capacity, `lsh_alias` on `alias name command` appends the entry
`(name, command)` at the end of the table and returns 1; afterwards
`expand_alias name` returns `command` when no earlier entry has that name, and
otherwise still returns what it returned before, the replacement of the first
earlier entry of that name.  On the startup table, defining `ll` as `dir` makes
`ll` resolve to `dir`. -/
theorem lsh_alias_define_then_expand (host : Host) (s : Shell) (name command : CStr)
    (hroom : s.aliases.length < MAX_ALIASES) (heq : '=' ∉ name) :
    (lsh_alias host s ["alias".toList, name, command]).1.aliases =
      s.aliases ++ [{ name := name, command := command }] ∧
    (lsh_alias host s ["alias".toList, name, command]).2 = 1 ∧
    ((∀ a ∈ s.aliases, a.name ≠ name) →
      expand_alias (lsh_alias host s ["alias".toList, name, command]).1.aliases name = command) ∧
    ((∃ a ∈ s.aliases, a.name = name) →
      expand_alias (lsh_alias host s ["alias".toList, name, command]).1.aliases name =
        expand_alias s.aliases name) ∧
    expand_alias
        (lsh_alias host startup_shell
          ["alias".toList, "ll".toList, "dir".toList]).1.aliases "ll".toList = "dir".toList := by
  have happ := lsh_alias_appends host s name command hroom heq
  refine ⟨happ, ?_, ?_, ?_, by rfl⟩
  · simp [lsh_alias, hroom]
  · intro hfree
    rw [happ, expand_alias, expand_alias_scan_append, expand_alias_scan_none _ _ hfree]
    simp [expand_alias_scan]
  · intro hused
    obtain ⟨r, hr⟩ := expand_alias_scan_some _ _ hused
    rw [happ, expand_alias, expand_alias, expand_alias_scan_append, hr]

/-- A fresh name defined in the empty table. -/
theorem lsh_alias_define_then_expand_witness :
    initial_shell.aliases.length < MAX_ALIASES ∧ '=' ∉ "gs".toList ∧
    expand_alias
        (lsh_alias ⟨fun _ => true⟩ initial_shell
          ["alias".toList, "gs".toList, "git".toList]).1.aliases "gs".toList = "git".toList :=
  ⟨by decide, by decide,
   (lsh_alias_define_then_expand ⟨fun _ => true⟩ initial_shell "gs".toList "git".toList
      (by decide) (by decide)).2.2.1 (by decide)⟩

/-! ## The `alias` builtin -/

/-- C11 (evaluation at the failing input): `lsh_alias` tests `args[2] == NULL`
before it looks for `=`, so for every name `n` and command `c` the single
combined token `n=c` only prints the usage text and leaves the alias table as
it was, while the two separate tokens `n`, `c` append the entry `(n, c)` to a
table with room.  On the startup table `alias x=y` defines nothing and
`alias x y` defines `x`. -/
theorem lsh_alias_combined_token (host : Host) (s : Shell) (n c : CStr) :
    lsh_alias host s ["alias".toList, n ++ '=' :: c] =
      (s.emits [.printf "Usage: alias <name> <command>\n".toList,
                .printf "       alias <name>=<command>\n".toList], 1) ∧
    (lsh_alias host s ["alias".toList, n ++ '=' :: c]).1.aliases = s.aliases ∧
    (lsh_alias host startup_shell ["alias".toList, "x=y".toList]).1.aliases =
      startup_aliases ∧
    (lsh_alias host startup_shell ["alias".toList, "x".toList, "y".toList]).1.aliases =
      startup_aliases ++ [{ name := "x".toList, command := "y".toList }] ∧
    (lsh_alias host startup_shell ["alias".toList, "x=y".toList]).1.aliases ≠
      (lsh_alias host startup_shell ["alias".toList, "x".toList, "y".toList]).1.aliases := by
  have hx : (lsh_alias host startup_shell ["alias".toList, "x=y".toList]).1.aliases =
      startup_aliases := rfl
  have hy : (lsh_alias host startup_shell ["alias".toList, "x".toList, "y".toList]).1.aliases =
      startup_aliases ++ [{ name := "x".toList, command := "y".toList }] := rfl
  refine ⟨by simp [lsh_alias], by simp [lsh_alias, Shell.emits], hx, hy, ?_⟩
  rw [hx, hy]
  decide

theorem lsh_alias_full (host : Host) (s : Shell) (args : List CStr) (name command : CStr)
    (h1 : args[1]? = some name) (h2 : args[2]? = some command)
    (hfull : ¬ s.aliases.length < MAX_ALIASES) :
    lsh_alias host s args =
      (s.emit (.printf "Maximum number of aliases reached.\n".toList), 1) := by
  simp [lsh_alias, h1, h2, hfull]

theorem lsh_alias_length_le (host : Host) (s : Shell) (args : List CStr)
    (h : s.aliases.length ≤ MAX_ALIASES) :
    (lsh_alias host s args).1.aliases.length ≤ MAX_ALIASES := by
  cases h1 : args[1]? with
  | none => simpa [lsh_alias, h1, Shell.emits] using h
  | some arg1 =>
    cases h2 : args[2]? with
    | none => simpa [lsh_alias, h1, h2, Shell.emits] using h
    | some arg2 =>
      by_cases hroom : s.aliases.length < MAX_ALIASES
      · simp only [lsh_alias, h1, h2, hroom, if_true, List.length_append, List.length_singleton]
        omega
      · simpa [lsh_alias, h1, h2, hroom, Shell.emit] using h

theorem lsh_alias_returns (host : Host) (s : Shell) (args : List CStr) :
    (lsh_alias host s args).2 = 1 := by
  cases h1 : args[1]? with
  | none => simp [lsh_alias, h1]
  | some arg1 =>
    cases h2 : args[2]? with
    | none => simp [lsh_alias, h1, h2]
    | some arg2 =>
      by_cases hroom : s.aliases.length < MAX_ALIASES
      · simp [lsh_alias, h1, h2, hroom]
      · simp [lsh_alias, h1, h2, hroom]

theorem lsh_cd_returns (host : Host) (s : Shell) (args : List CStr) :
    (lsh_cd host s args).2 = 1 := by
  unfold lsh_cd
  split
  · rfl
  · split <;> rfl

theorem lsh_color_returns (host : Host) (s : Shell) (args : List CStr) :
    (lsh_color host s args).2 = 1 := by
  unfold lsh_color
  split
  · rfl
  · split <;> rfl

theorem lsh_launch_returns (s : Shell) (args : List CStr) : (lsh_launch s args).2 = 1 := by
  unfold lsh_launch
  split <;> rfl

/-! ## Dispatcher: one step of `lsh_execute` -/

theorem lsh_execute_alias (host : Host) (fuel : Nat) (s : Shell) (t : CStr) (rest : List CStr)
    (r : CStr) (ht : t ≠ ['!', '!']) (hr : expand_alias_scan s.aliases t = some r) :
    lsh_execute host (fuel + 1) s (t :: rest) =
      lsh_execute host fuel s (lsh_split_line (expanded_line r rest)) := by
  simp [lsh_execute, ht, expanded_differs, expand_alias, hr]

theorem lsh_execute_alias_zero (host : Host) (s : Shell) (t : CStr) (rest : List CStr)
    (r : CStr) (ht : t ≠ ['!', '!']) (hr : expand_alias_scan s.aliases t = some r) :
    lsh_execute host 0 s (t :: rest) = (s, none) := by
  simp [lsh_execute, ht, expanded_differs, hr]

theorem lsh_execute_plain (host : Host) (fuel : Nat) (s : Shell) (t : CStr) (rest : List CStr)
    (ht : t ≠ ['!', '!']) (hr : expand_alias_scan s.aliases t = none) :
    lsh_execute host fuel s (t :: rest) =
      match find_builtin builtin_str builtin_func t with
      | some handler => ((handler host s (t :: rest)).1, some (handler host s (t :: rest)).2)
      | none => ((lsh_launch s (t :: rest)).1, some (lsh_launch s (t :: rest)).2) := by
  cases fuel <;> simp only [lsh_execute, ht, if_false, expanded_differs, hr, Option.isSome_none,
    Bool.false_eq_true]

theorem lsh_execute_repeat (host : Host) (fuel : Nat) (s : Shell) (rest : List CStr)
    (last : CStr) (h : s.last_command = some last) :
    lsh_execute host (fuel + 1) s (['!', '!'] :: rest) =
      lsh_execute host fuel
        (s.emit (.printf ("Executing: ".toList ++ last ++ "\n".toList))) (lsh_split_line last) := by
  simp [lsh_execute, h]

theorem find_builtin_mem :
    ∀ (names : List CStr) (handlers : List (Host → Shell → List CStr → Shell × Int))
      (command : CStr) (handler : Host → Shell → List CStr → Shell × Int),
      find_builtin names handlers command = some handler → handler ∈ handlers := by
  intro names
  induction names with
  | nil => intro handlers command handler h; simp [find_builtin] at h
  | cons n ns ih =>
    intro handlers command handler h
    cases handlers with
    | nil => simp [find_builtin] at h
    | cons f fs =>
      by_cases hc : command = n
      · simp [find_builtin, hc] at h
        simp [h]
      · simp only [find_builtin, hc, if_false] at h
        exact List.mem_cons_of_mem _ (ih fs command handler h)

theorem find_builtin_none :
    ∀ (names : List CStr) (handlers : List (Host → Shell → List CStr → Shell × Int))
      (command : CStr), command ∉ names → find_builtin names handlers command = none := by
  intro names
  induction names with
  | nil => intro handlers command _; simp [find_builtin]
  | cons n ns ih =>
    intro handlers command h
    cases handlers with
    | nil => simp [find_builtin]
    | cons f fs =>
      have hc : command ≠ n := fun e => h (by simp [e])
      simp only [find_builtin, hc, if_false]
      exact ih fs command (fun hm => h (List.mem_cons_of_mem _ hm))

/-! ## Alias capacity -/

theorem builtin_aliases_length_le (handler : Host → Shell → List CStr → Shell × Int)
    (hmem : handler ∈ builtin_func) (host : Host) (s : Shell) (args : List CStr)
    (h : s.aliases.length ≤ MAX_ALIASES) :
    (handler host s args).1.aliases.length ≤ MAX_ALIASES := by
  simp only [builtin_func, List.mem_cons, List.mem_singleton, List.not_mem_nil, or_false] at hmem
  rcases hmem with rfl | rfl | rfl | rfl | rfl | rfl | rfl
  · unfold lsh_cd
    split
    · simpa [Shell.emit] using h
    · split <;> simpa [Shell.emit] using h
  · simpa [lsh_help, Shell.emits] using h
  · simp [lsh_exit]
  · simpa [lsh_history, Shell.emits] using h
  · simpa [lsh_clear, Shell.emit] using h
  · unfold lsh_color
    split
    · simpa [Shell.emits] using h
    · split <;> simpa [Shell.emit, Shell.emits] using h
  · exact lsh_alias_length_le host s args h

theorem lsh_launch_aliases (s : Shell) (args : List CStr) :
    (lsh_launch s args).1.aliases = s.aliases := by
  unfold lsh_launch
  split <;> rfl

theorem lsh_execute_aliases_length_le (host : Host) (fuel : Nat) :
    ∀ (s : Shell) (args : List CStr), s.aliases.length ≤ MAX_ALIASES →
      (lsh_execute host fuel s args).1.aliases.length ≤ MAX_ALIASES := by
  induction fuel with
  | zero =>
    intro s args h
    cases args with
    | nil => simpa [lsh_execute] using h
    | cons t rest =>
      by_cases ht : t = ['!', '!']
      · subst ht
        cases hl : s.last_command with
        | none => simpa [lsh_execute, hl, Shell.emit] using h
        | some last => simpa [lsh_execute, hl, Shell.emit] using h
      · cases hr : expand_alias_scan s.aliases t with
        | some r => rw [lsh_execute_alias_zero host s t rest r ht hr]; exact h
        | none =>
          rw [lsh_execute_plain host 0 s t rest ht hr]
          split
          · next handler hf =>
            exact builtin_aliases_length_le handler (find_builtin_mem _ _ _ _ hf) host s _ h
          · simpa [lsh_launch_aliases] using h
  | succ n ih =>
    intro s args h
    cases args with
    | nil => simpa [lsh_execute] using h
    | cons t rest =>
      by_cases ht : t = ['!', '!']
      · subst ht
        cases hl : s.last_command with
        | none => simpa [lsh_execute, hl, Shell.emit] using h
        | some last =>
          rw [lsh_execute_repeat host n s rest last hl]
          exact ih _ _ (by simpa [Shell.emit] using h)
      · cases hr : expand_alias_scan s.aliases t with
        | some r => rw [lsh_execute_alias host n s t rest r ht hr]; exact ih _ _ h
        | none =>
          rw [lsh_execute_plain host (n + 1) s t rest ht hr]
          split
          · next handler hf =>
            exact builtin_aliases_length_le handler (find_builtin_mem _ _ _ _ hf) host s _ h
          · simpa [lsh_launch_aliases] using h

theorem add_to_history_aliases (s : Shell) (line : CStr) :
    (add_to_history s line).aliases = s.aliases := by
  unfold add_to_history
  split <;> rfl

theorem lsh_loop_body_aliases_length_le (host : Host) (fuel : Nat) (s : Shell) (line : CStr)
    (h : s.aliases.length ≤ MAX_ALIASES) :
    (lsh_loop_body host fuel s line).1.aliases.length ≤ MAX_ALIASES := by
  unfold lsh_loop_body
  split
  · exact h
  · split
    · simp only [handle_pipeline]
      split
      · simpa [add_to_history_aliases, Shell.emits] using h
      · simpa [add_to_history_aliases] using h
    · simp only []
      apply lsh_execute_aliases_length_le
      simpa [add_to_history_aliases] using h

/-- C12: when the alias table already holds 50 entries, `lsh_alias` with a
name and a command only prints the capacity message: every entry and the
entry count stay as they were (nothing is added, nothing evicted) and 1 is
returned.  The entry count never exceeds 50: it is at most 50 at startup and
no pass of the read loop takes it above 50. -/
theorem lsh_alias_table_full (host : Host) (s : Shell) (name command : CStr)
    (rest : List CStr) (hfull : s.aliases.length = 50) :
    lsh_alias host s ("alias".toList :: name :: command :: rest) =
      (s.emit (.printf "Maximum number of aliases reached.\n".toList), 1) ∧
    (lsh_alias host s ("alias".toList :: name :: command :: rest)).1.aliases = s.aliases ∧
    (lsh_alias host s ("alias".toList :: name :: command :: rest)).1.aliases.length = 50 ∧
    (lsh_alias host s ("alias".toList :: name :: command :: rest)).2 = 1 ∧
    startup_shell.aliases.length ≤ 50 ∧
    (∀ (fuel : Nat) (s0 : Shell) (line : CStr), s0.aliases.length ≤ 50 →
      (lsh_loop_body host fuel s0 line).1.aliases.length ≤ 50) ∧
    (∀ (fuel : Nat) (s0 : Shell) (args : List CStr), s0.aliases.length ≤ 50 →
      (lsh_execute host fuel s0 args).1.aliases.length ≤ 50) := by
  have h := lsh_alias_full host s ("alias".toList :: name :: command :: rest) name command
    (by simp) (by simp) (by simp [MAX_ALIASES, hfull])
  rw [h]
  refine ⟨rfl, rfl, hfull, rfl, by decide, ?_, ?_⟩
  · intro fuel s0 line h0
    exact lsh_loop_body_aliases_length_le host fuel s0 line h0
  · intro fuel s0 args h0
    exact lsh_execute_aliases_length_le host fuel s0 args h0

/-- A table filled with 50 entries rejects a further definition. -/
theorem lsh_alias_table_full_witness :
    (lsh_alias ⟨fun _ => true⟩
      { initial_shell with
          aliases := List.replicate 50 { name := "a".toList, command := "b".toList } }
      ["alias".toList, "gs".toList, "git".toList]).1.aliases =
      List.replicate 50 { name := "a".toList, command := "b".toList } :=
  (lsh_alias_table_full ⟨fun _ => true⟩
    { initial_shell with
        aliases := List.replicate 50 { name := "a".toList, command := "b".toList } }
    "gs".toList "git".toList [] (by simp)).2.1

/-! ## Continuation signal -/

/-- C13: the continuation signal is falsy only for `exit`.  `lsh_exit` returns
0 for every argument vector; `lsh_cd`, `lsh_help`, `lsh_history`, `lsh_clear`,
`lsh_color` and `lsh_alias` return 1 for every argument vector, so the handler
the builtin table gives for a name returns 0 exactly when the name is `exit`;
`lsh_launch` and `handle_redirection` return 1 for every argument vector: the
status of `system` is dropped in the source and is no input of their result. -/
theorem continuation_signal (host : Host) (s : Shell) (args : List CStr) :
    (lsh_exit host s args).2 = 0 ∧
    (lsh_cd host s args).2 = 1 ∧
    (lsh_help host s args).2 = 1 ∧
    (lsh_history host s args).2 = 1 ∧
    (lsh_clear host s args).2 = 1 ∧
    (lsh_color host s args).2 = 1 ∧
    (lsh_alias host s args).2 = 1 ∧
    (lsh_launch s args).2 = 1 ∧
    (handle_redirection s args).2 = 1 ∧
    (∀ (name : CStr) (handler : Host → Shell → List CStr → Shell × Int),
      find_builtin builtin_str builtin_func name = some handler →
        ((handler host s args).2 = 0 ↔ name = "exit".toList) ∧
        ((handler host s args).2 = 1 ↔ name ≠ "exit".toList)) := by
  refine ⟨rfl, lsh_cd_returns host s args, rfl, rfl, rfl, lsh_color_returns host s args,
    lsh_alias_returns host s args, lsh_launch_returns s args, rfl, ?_⟩
  intro name handler h
  have e0 : (lsh_exit host s args).2 = 0 := rfl
  have e1 : (lsh_help host s args).2 = 1 := rfl
  have e2 : (lsh_history host s args).2 = 1 := rfl
  have e3 : (lsh_clear host s args).2 = 1 := rfl
  unfold builtin_str builtin_func at h
  simp only [find_builtin] at h
  split_ifs at h with h1 h2 h3 h4 h5 h6 h7
  · cases h; subst h1
    simp only [lsh_cd_returns]
    decide
  · cases h; subst h2
    simp only [e1]
    decide
  · cases h; subst h3
    simp only [e0]
    decide
  · cases h; subst h4
    simp only [e2]
    decide
  · cases h; subst h5
    simp only [e3]
    decide
  · cases h; subst h6
    simp only [lsh_color_returns]
    decide
  · cases h; subst h7
    simp only [lsh_alias_returns]
    decide

/-! ## Alias expansion and external launch -/

theorem expanded_line_eq (rest : List CStr) : ∀ r : CStr,
    expanded_line r rest = r ++ (rest.map (fun a => ' ' :: a)).flatten := by
  induction rest with
  | nil => intro r; simp [expanded_line]
  | cons a rest ih =>
    intro r
    have := ih (r ++ [' '] ++ a)
    simp only [expanded_line, List.foldl_cons] at this ⊢
    rw [this]
    simp

theorem intercalate_space_cons_cons (a b : CStr) (rest : List CStr) :
    List.intercalate [' '] (a :: b :: rest) = a ++ ' ' :: List.intercalate [' '] (b :: rest) := by
  rw [intercalate_space_cons, intercalate_space_cons]
  simp

theorem takeWhile_token_append (t z : CStr) (ht : ∀ c ∈ t, is_delim c = false) :
    (t ++ ' ' :: z).takeWhile (fun x => !is_delim x) = t := by
  induction t with
  | nil => simp [is_delim, LSH_TOK_DELIM]
  | cons x xs ih =>
    have hx := ht x (List.mem_cons_self _ _)
    simp only [List.cons_append, List.takeWhile_cons, hx, Bool.not_false, if_true]
    rw [ih (fun c hc => ht c (List.mem_cons_of_mem _ hc))]

theorem dropWhile_token_append (t z : CStr) (ht : ∀ c ∈ t, is_delim c = false) :
    (t ++ ' ' :: z).dropWhile (fun x => !is_delim x) = ' ' :: z := by
  induction t with
  | nil => simp [is_delim, LSH_TOK_DELIM]
  | cons x xs ih =>
    have hx := ht x (List.mem_cons_self _ _)
    simp only [List.cons_append, List.dropWhile_cons, hx, Bool.not_false, if_true]
    rw [ih (fun c hc => ht c (List.mem_cons_of_mem _ hc))]

theorem maximal_runs_token (t : CStr) (hne : t ≠ []) (ht : ∀ c ∈ t, is_delim c = false) :
    maximal_runs t = [t] := by
  cases t with
  | nil => exact absurd rfl hne
  | cons c cs =>
    rw [maximal_runs_cons_token c cs (ht c (List.mem_cons_self _ _))]
    have h1 : (c :: cs).takeWhile (fun x => !is_delim x) = c :: cs := by
      rw [List.takeWhile_eq_self_iff]
      intro x hx
      simp [ht x hx]
    have h2 : (c :: cs).dropWhile (fun x => !is_delim x) = [] := by
      rw [List.dropWhile_eq_nil_iff]
      intro x hx
      simp [ht x hx]
    rw [h1, h2]
    simp [maximal_runs_nil]

theorem maximal_runs_token_append (t z : CStr) (hne : t ≠ [])
    (ht : ∀ c ∈ t, is_delim c = false) :
    maximal_runs (t ++ ' ' :: z) = t :: maximal_runs z := by
  cases t with
  | nil => exact absurd rfl hne
  | cons c cs =>
    rw [List.cons_append, maximal_runs_cons_token c _ (ht c (List.mem_cons_self _ _)),
      ← List.cons_append, takeWhile_token_append _ z ht, dropWhile_token_append _ z ht]
    simp

theorem maximal_runs_join (tokens : List CStr)
    (h : ∀ t ∈ tokens, t ≠ [] ∧ ∀ c ∈ t, is_delim c = false) :
    maximal_runs (List.intercalate [' '] tokens) = tokens := by
  induction tokens with
  | nil => simp [List.intercalate, maximal_runs_nil]
  | cons t rest ih =>
    have ht := h t (List.mem_cons_self _ _)
    have hrest : ∀ u ∈ rest, u ≠ [] ∧ ∀ c ∈ u, is_delim c = false :=
      fun u hu => h u (List.mem_cons_of_mem _ hu)
    cases rest with
    | nil =>
      have : List.intercalate [' '] [t] = t := by simp [List.intercalate]
      rw [this, maximal_runs_token t ht.1 ht.2]
    | cons u us =>
      rw [intercalate_space_cons_cons, maximal_runs_token_append t _ ht.1 ht.2, ih hrest]

/-- C16: for every list of tokens that are non-empty and free of delimiter
characters, `lsh_split_line` applied to the tokens joined with single spaces
returns the token list; hence for every line, tokenizing, joining with single
spaces and tokenizing again gives the tokens of the line. -/
theorem lsh_split_line_join (tokens : List CStr) (line : CStr)
    (h : ∀ t ∈ tokens, t ≠ [] ∧ ∀ c ∈ t, is_delim c = false) :
    lsh_split_line (List.intercalate [' '] tokens) = tokens ∧
    lsh_split_line (List.intercalate [' '] (lsh_split_line line)) = lsh_split_line line := by
  constructor
  · rw [lsh_split_line_runs]
    exact maximal_runs_join tokens h
  · rw [lsh_split_line_runs (List.intercalate [' '] (lsh_split_line line))]
    exact maximal_runs_join _ (fun t ht => lsh_split_loop_token _ line t ht)

/-- Two tokens joined and split again. -/
theorem lsh_split_line_join_witness :
    (∀ t ∈ ["dir".toList, "/w".toList], t ≠ [] ∧ ∀ c ∈ t, is_delim c = false) ∧
    lsh_split_line (List.intercalate [' '] ["dir".toList, "/w".toList]) =
      ["dir".toList, "/w".toList] :=
  ⟨by decide,
   (lsh_split_line_join ["dir".toList, "/w".toList] "  dir   /w ".toList (by decide)).1⟩

/-! ## Alias cycles -/

theorem splitOnP_append_delim (p : Char → Bool) (d : Char) (hd : p d = true) (z : List Char) :
    ∀ x : List Char, (x ++ d :: z).splitOnP p = x.splitOnP p ++ z.splitOnP p := by
  intro x
  induction x with
  | nil => simp [hd]
  | cons c cs ih =>
    rw [List.cons_append, List.splitOnP_cons, List.splitOnP_cons, ih]
    by_cases hc : p c = true
    · simp [hc]
    · simp only [hc, if_false]
      cases hs : List.splitOnP p cs with
      | nil => exact absurd hs (List.splitOnP_ne_nil p cs)
      | cons a as => simp [List.modifyHead]

theorem maximal_runs_append_space (x z : CStr) :
    maximal_runs (x ++ ' ' :: z) = maximal_runs x ++ maximal_runs z := by
  unfold maximal_runs
  rw [splitOnP_append_delim is_delim ' ' (by decide) z x, List.filter_append]

theorem lsh_split_line_expanded (r : CStr) (rest : List CStr) :
    ∃ more, lsh_split_line (expanded_line r rest) = lsh_split_line r ++ more := by
  rw [expanded_line_eq]
  cases rest with
  | nil => exact ⟨[], by simp⟩
  | cons a rest =>
    refine ⟨maximal_runs (a ++ (rest.map (fun a => ' ' :: a)).flatten), ?_⟩
    simp only [List.map_cons, List.flatten_cons, List.cons_append]
    rw [lsh_split_line_runs, lsh_split_line_runs, maximal_runs_append_space]

theorem lsh_execute_alias_cycle (host : Host) (s : Shell) (P : CStr → Prop)
    (hP : ∀ x, P x → x ≠ ['!', '!'] ∧ ∃ r y tail,
      expand_alias_scan s.aliases x = some r ∧ lsh_split_line r = y :: tail ∧ P y) :
    ∀ (fuel : Nat) (x : CStr) (rest : List CStr), P x →
      lsh_execute host fuel s (x :: rest) = (s, none) := by
  intro fuel
  induction fuel with
  | zero =>
    intro x rest hx
    obtain ⟨hne, r, y, tail, hr, _, _⟩ := hP x hx
    exact lsh_execute_alias_zero host s x rest r hne hr
  | succ n ih =>
    intro x rest hx
    obtain ⟨hne, r, y, tail, hr, hsplit, hy⟩ := hP x hx
    obtain ⟨more, hmore⟩ := lsh_split_line_expanded r rest
    rw [lsh_execute_alias host n s x rest r hne hr, hmore, hsplit, List.cons_append]
    exact ih y _ hy

theorem lsh_execute_alias_self (host : Host) (s : Shell) (t r : CStr) (tail : List CStr)
    (ht : t ≠ ['!', '!']) (hr : expand_alias_scan s.aliases t = some r)
    (hself : lsh_split_line r = t :: tail) (fuel : Nat) (rest : List CStr) :
    lsh_execute host fuel s (t :: rest) = (s, none) := by
  apply lsh_execute_alias_cycle host s (fun x => x = t)
  · intro x hx
    subst hx
    exact ⟨ht, r, x, tail, hr, hself, rfl⟩
  · rfl

theorem lsh_execute_alias_mutual (host : Host) (s : Shell) (t u rt ru : CStr)
    (tt tu : List CStr) (ht : t ≠ ['!', '!']) (hu : u ≠ ['!', '!'])
    (hrt : expand_alias_scan s.aliases t = some rt) (hst : lsh_split_line rt = u :: tt)
    (hru : expand_alias_scan s.aliases u = some ru) (hsu : lsh_split_line ru = t :: tu)
    (fuel : Nat) (rest : List CStr) :
    lsh_execute host fuel s (t :: rest) = (s, none) := by
  apply lsh_execute_alias_cycle host s (fun x => x = t ∨ x = u)
  · intro x hx
    rcases hx with rfl | rfl
    · exact ⟨ht, rt, u, tt, hrt, hst, Or.inr rfl⟩
    · exact ⟨hu, ru, t, tu, hru, hsu, Or.inl rfl⟩
  · exact Or.inl rfl

theorem lsh_execute_plain_returns (host : Host) (fuel : Nat) (s : Shell) (t : CStr)
    (rest : List CStr) (ht : t ≠ ['!', '!']) (hr : expand_alias_scan s.aliases t = none) :
    ∃ status, (lsh_execute host fuel s (t :: rest)).2 = some status := by
  rw [lsh_execute_plain host fuel s t rest ht hr]
  split
  · exact ⟨_, rfl⟩
  · exact ⟨_, rfl⟩

/-- C17 (counterexample): `lsh_execute` has no guard against an alias that
leads back to itself.  With `ls` defined as `ls -la`, with `a` and `b` defined
as each other, and in the state reached from startup by entering
`alias gs gs`, the dispatch of `ls`, of `a` and of the line `gs` returns no
status for any recursion budget. -/
theorem lsh_execute_alias_unguarded :
    (¬ ∃ (fuel : Nat) (status : Int),
      (lsh_execute ⟨fun _ => true⟩ fuel
        { initial_shell with
            aliases := [{ name := "ls".toList, command := "ls -la".toList }] }
        ["ls".toList]).2 = some status) ∧
    (¬ ∃ (fuel : Nat) (status : Int),
      (lsh_execute ⟨fun _ => true⟩ fuel
        { initial_shell with
            aliases := [{ name := "a".toList, command := "b".toList },
                        { name := "b".toList, command := "a".toList }] }
        ["a".toList]).2 = some status) ∧
    (¬ ∃ (fuel : Nat) (status : Int),
      (lsh_loop_body ⟨fun _ => true⟩ fuel
        (lsh_loop_body ⟨fun _ => true⟩ 0 startup_shell "alias gs gs".toList).1
        "gs".toList).2 = some (some status)) := by
  refine ⟨?_, ?_, ?_⟩
  · rintro ⟨fuel, status, h⟩
    rw [lsh_execute_alias_self ⟨fun _ => true⟩
      { initial_shell with aliases := [{ name := "ls".toList, command := "ls -la".toList }] }
      "ls".toList "ls -la".toList ["-la".toList] (by decide) rfl rfl fuel []] at h
    simp at h
  · rintro ⟨fuel, status, h⟩
    rw [lsh_execute_alias_mutual ⟨fun _ => true⟩
      { initial_shell with
          aliases := [{ name := "a".toList, command := "b".toList },
                      { name := "b".toList, command := "a".toList }] }
      "a".toList "b".toList "b".toList "a".toList
      [] [] (by decide) (by decide) rfl rfl rfl rfl fuel []] at h
    simp at h
  · rintro ⟨fuel, status, h⟩
    have hbody : ∀ s : Shell, lsh_loop_body ⟨fun _ => true⟩ fuel s "gs".toList =
        ((lsh_execute ⟨fun _ => true⟩ fuel
            { add_to_history s "gs".toList with last_command := some "gs".toList }
            ["gs".toList]).1,
         some (lsh_execute ⟨fun _ => true⟩ fuel
            { add_to_history s "gs".toList with last_command := some "gs".toList }
            ["gs".toList]).2) := by
      intro s
      rfl
    rw [hbody] at h
    rw [lsh_execute_alias_self ⟨fun _ => true⟩ _ "gs".toList "gs".toList []
      (by decide) (by rw [add_to_history_aliases]; rfl) rfl fuel []] at h
    simp at h

/-- C17 (amended): alias resolution in the dispatcher has no self-reference
protection.  For every alias table and every argument vector whose first
token `t` is not `!!`: when `t` is not an alias name, `lsh_execute` returns a
status with every recursion budget; when `t` is an alias, it returns whenever
the dispatch of the expanded line returns, one call deeper; but when the
replacement of `t` has `t` itself as its first token, or when `t` and another
alias `u` have each other as the first token of their replacements,
`lsh_execute` never returns: every recursion budget is used up, with no
effect performed. -/
theorem lsh_execute_alias_termination (host : Host) (s : Shell) (t : CStr)
    (rest : List CStr) (ht : t ≠ ['!', '!']) :
    ((∀ a ∈ s.aliases, a.name ≠ t) →
      ∀ fuel, ∃ status, (lsh_execute host fuel s (t :: rest)).2 = some status) ∧
    (∀ (r : CStr) (n : Nat) (status : Int), expand_alias_scan s.aliases t = some r →
      (lsh_execute host n s (lsh_split_line (expanded_line r rest))).2 = some status →
      (lsh_execute host (n + 1) s (t :: rest)).2 = some status) ∧
    (∀ (r : CStr) (tail : List CStr), expand_alias_scan s.aliases t = some r →
      lsh_split_line r = t :: tail →
      ∀ fuel, lsh_execute host fuel s (t :: rest) = (s, none)) ∧
    (∀ (u rt ru : CStr) (tt tu : List CStr), u ≠ ['!', '!'] →
      expand_alias_scan s.aliases t = some rt → lsh_split_line rt = u :: tt →
      expand_alias_scan s.aliases u = some ru → lsh_split_line ru = t :: tu →
      ∀ fuel, lsh_execute host fuel s (t :: rest) = (s, none)) := by
  refine ⟨?_, ?_, ?_, ?_⟩
  · intro hfree fuel
    exact lsh_execute_plain_returns host fuel s t rest ht (expand_alias_scan_none _ _ hfree)
  · intro r n status hr hinner
    rw [lsh_execute_alias host n s t rest r ht hr]
    exact hinner
  · intro r tail hr hself fuel
    exact lsh_execute_alias_self host s t r tail ht hr hself fuel rest
  · intro u rt ru tt tu hu hrt hst hru hsu fuel
    exact lsh_execute_alias_mutual host s t u rt ru tt tu ht hu hrt hst hru hsu fuel rest

/-- The alias `gs` defined as `gs`, dispatched with a budget of 3. -/
theorem lsh_execute_alias_termination_witness :
    lsh_execute ⟨fun _ => true⟩ 3
      { initial_shell with aliases := [{ name := "gs".toList, command := "gs".toList }] }
      ["gs".toList, "-s".toList] =
      ({ initial_shell with aliases := [{ name := "gs".toList, command := "gs".toList }] },
       none) ∧
    (∃ status, (lsh_execute ⟨fun _ => true⟩ 0 startup_shell ["dir".toList]).2 = some status) :=
  ⟨(lsh_execute_alias_termination ⟨fun _ => true⟩
      { initial_shell with aliases := [{ name := "gs".toList, command := "gs".toList }] }
      "gs".toList ["-s".toList] (by decide)).2.2.1 "gs".toList [] rfl rfl 3,
   (lsh_execute_alias_termination ⟨fun _ => true⟩ startup_shell "dir".toList []
      (by decide)).1 (by decide) 0⟩

/-! ## Redirection: one clause -/

theorem color_attribute_in_range (v : Int) (h : 1 ≤ v ∧ v ≤ 7) :
    ∃ attr, color_attribute v = some attr := by
  obtain ⟨h1, h7⟩ := h
  interval_cases v <;> exact ⟨_, rfl⟩

theorem color_attribute_out_of_range (v : Int) (h : ¬ (1 ≤ v ∧ v ≤ 7)) :
    color_attribute v = none := by
  unfold color_attribute
  split_ifs <;> first | rfl | omega

/-- C19 (counterexample): `lsh_color` converts its argument with `atoi`, which
reads the leading digits and ignores what follows, so `color 3abc` sets the
attribute of colour 3 and prints `Color changed!`; `Invalid color code` is not
reported. -/
theorem lsh_color_accepts_trailing_text :
    atoi "3abc".toList = 3 ∧
    lsh_color ⟨fun _ => true⟩ initial_shell ["color".toList, "3abc".toList] =
      (initial_shell.emits
        [.set_attribute (FOREGROUND_BLUE ||| FOREGROUND_GREEN ||| FOREGROUND_INTENSITY),
         .printf "Color changed!\n".toList], 1) ∧
    Event.printf "Invalid color code. Use 1-7.\n".toList ∉
      (lsh_color ⟨fun _ => true⟩ initial_shell ["color".toList, "3abc".toList]).1.out := by
  refine ⟨by rfl, by rfl, by decide⟩

/-- C19 (amended): for every argument vector `color a ...`, `lsh_color`
changes the text attribute if and only if `atoi a` is in the set 1 to 7, where
`atoi` reads an optional sign and the leading decimal digits of `a` and
ignores whatever follows them (`3`, `03`, `+3` and `3abc` all give 3); for
every other argument (`8`, `0`, `-3`, `abc`) it reports
`Invalid color code. Use 1-7.` and performs no attribute change; in both cases
it returns 1. -/
theorem lsh_color_by_atoi (host : Host) (s : Shell) (a : CStr) (rest : List CStr) :
    (lsh_color host s ("color".toList :: a :: rest)).2 = 1 ∧
    ((1 ≤ atoi a ∧ atoi a ≤ 7) →
      ∃ attr, color_attribute (atoi a) = some attr ∧
        lsh_color host s ("color".toList :: a :: rest) =
          (s.emits [.set_attribute attr, .printf "Color changed!\n".toList], 1)) ∧
    (¬ (1 ≤ atoi a ∧ atoi a ≤ 7) →
      lsh_color host s ("color".toList :: a :: rest) =
        (s.emit (.printf "Invalid color code. Use 1-7.\n".toList), 1)) ∧
    ((∃ attr, (lsh_color host s ("color".toList :: a :: rest)).1.out =
        s.out ++ [.set_attribute attr, .printf "Color changed!\n".toList]) ↔
      (1 ≤ atoi a ∧ atoi a ≤ 7)) ∧
    (atoi "3".toList = 3 ∧ atoi "03".toList = 3 ∧ atoi "+3".toList = 3 ∧
      atoi "3abc".toList = 3 ∧ atoi "8".toList = 8 ∧ atoi "0".toList = 0 ∧
      atoi "-3".toList = -3 ∧ atoi "abc".toList = 0) := by
  have hin : (1 ≤ atoi a ∧ atoi a ≤ 7) →
      ∃ attr, color_attribute (atoi a) = some attr ∧
        lsh_color host s ("color".toList :: a :: rest) =
          (s.emits [.set_attribute attr, .printf "Color changed!\n".toList], 1) := by
    intro h
    obtain ⟨attr, hattr⟩ := color_attribute_in_range (atoi a) h
    exact ⟨attr, hattr, by simp [lsh_color, hattr]⟩
  have hout : ¬ (1 ≤ atoi a ∧ atoi a ≤ 7) →
      lsh_color host s ("color".toList :: a :: rest) =
        (s.emit (.printf "Invalid color code. Use 1-7.\n".toList), 1) := by
    intro h
    simp [lsh_color, color_attribute_out_of_range (atoi a) h]
  refine ⟨lsh_color_returns host s _, hin, hout, ?_, ?_⟩
  · constructor
    · rintro ⟨attr, hattr⟩
      by_contra hno
      rw [hout hno] at hattr
      simp [Shell.emit] at hattr
    · intro h
      obtain ⟨attr, _, hres⟩ := hin h
      exact ⟨attr, by rw [hres]; rfl⟩
  · refine ⟨by rfl, by rfl, by rfl, by rfl, by rfl, by rfl, by rfl, by rfl⟩

/-- The arguments `5` and `9`. -/
theorem lsh_color_by_atoi_witness :
    (∃ attr, color_attribute (atoi "5".toList) = some attr ∧
      lsh_color ⟨fun _ => true⟩ initial_shell ["color".toList, "5".toList] =
        (initial_shell.emits [.set_attribute attr, .printf "Color changed!\n".toList], 1)) ∧
    lsh_color ⟨fun _ => true⟩ initial_shell ["color".toList, "9".toList] =
      (initial_shell.emit (.printf "Invalid color code. Use 1-7.\n".toList), 1) :=
  ⟨(lsh_color_by_atoi ⟨fun _ => true⟩ initial_shell "5".toList []).2.1 (by decide),
   (lsh_color_by_atoi ⟨fun _ => true⟩ initial_shell "9".toList []).2.2.1 (by decide)⟩

/-! ## Aliases come before builtins -/

theorem lsh_execute_builtin (host : Host) (fuel : Nat) (s : Shell) (t : CStr)
    (rest : List CStr) (handler : Host → Shell → List CStr → Shell × Int)
    (ht : t ≠ ['!', '!']) (hr : expand_alias_scan s.aliases t = none)
    (hf : find_builtin builtin_str builtin_func t = some handler) :
    lsh_execute host fuel s (t :: rest) =
      ((handler host s (t :: rest)).1, some (handler host s (t :: rest)).2) := by
  rw [lsh_execute_plain host fuel s t rest ht hr, hf]

/-- C20: a builtin handler is invoked only for a first token that is not an
alias name.  For every alias table with an entry named `t` (a builtin name or
not), `lsh_execute` on `t :: rest` dispatches the tokenized alias replacement
and the handler is not applied to the vector; with `cd` defined as `dir`,
`cd src` hands `dir src` to the host executor and calls no `_chdir`.  For
every first token that is neither `!!` nor an alias name, the result is that
of the handler of `cd`, `help`, `exit`, `history`, `clear`, `color`, `alias`
exactly when the token is that name (the seven names are pairwise distinct),
and that of `lsh_launch` when it is none of them. -/
theorem lsh_execute_alias_before_builtin (host : Host) (fuel : Nat) (s : Shell) (t : CStr)
    (rest : List CStr) (ht : t ≠ ['!', '!']) :
    ((∃ a ∈ s.aliases, a.name = t) →
      lsh_execute host (fuel + 1) s (t :: rest) =
        lsh_execute host fuel s
          (lsh_split_line (expanded_line (expand_alias s.aliases t) rest))) ∧
    builtin_str.Nodup ∧
    ((∀ a ∈ s.aliases, a.name ≠ t) →
      (t = "cd".toList → lsh_execute host fuel s (t :: rest) =
        ((lsh_cd host s (t :: rest)).1, some (lsh_cd host s (t :: rest)).2)) ∧
      (t = "help".toList → lsh_execute host fuel s (t :: rest) =
        ((lsh_help host s (t :: rest)).1, some (lsh_help host s (t :: rest)).2)) ∧
      (t = "exit".toList → lsh_execute host fuel s (t :: rest) =
        ((lsh_exit host s (t :: rest)).1, some (lsh_exit host s (t :: rest)).2)) ∧
      (t = "history".toList → lsh_execute host fuel s (t :: rest) =
        ((lsh_history host s (t :: rest)).1, some (lsh_history host s (t :: rest)).2)) ∧
      (t = "clear".toList → lsh_execute host fuel s (t :: rest) =
        ((lsh_clear host s (t :: rest)).1, some (lsh_clear host s (t :: rest)).2)) ∧
      (t = "color".toList → lsh_execute host fuel s (t :: rest) =
        ((lsh_color host s (t :: rest)).1, some (lsh_color host s (t :: rest)).2)) ∧
      (t = "alias".toList → lsh_execute host fuel s (t :: rest) =
        ((lsh_alias host s (t :: rest)).1, some (lsh_alias host s (t :: rest)).2)) ∧
      (t ∉ builtin_str → lsh_execute host fuel s (t :: rest) =
        ((lsh_launch s (t :: rest)).1, some (lsh_launch s (t :: rest)).2))) ∧
    (lsh_execute host (fuel + 1)
        { initial_shell with aliases := [{ name := "cd".toList, command := "dir".toList }] }
        ["cd".toList, "src".toList] =
      ({ initial_shell with
          aliases := [{ name := "cd".toList, command := "dir".toList }],
          out := [.system "dir src".toList] }, some 1) ∧
     Event.chdir "src".toList ∉
      (lsh_execute host (fuel + 1)
        { initial_shell with aliases := [{ name := "cd".toList, command := "dir".toList }] }
        ["cd".toList, "src".toList]).1.out) := by
  refine ⟨?_, by decide, ?_, ?_⟩
  · intro halias
    obtain ⟨r, hr⟩ := expand_alias_scan_some s.aliases t halias
    rw [lsh_execute_alias host fuel s t rest r ht hr]
    simp [expand_alias, hr]
  · intro hfree
    have hr := expand_alias_scan_none _ _ hfree
    refine ⟨?_, ?_, ?_, ?_, ?_, ?_, ?_, ?_⟩
    · intro h
      exact lsh_execute_builtin host fuel s t rest lsh_cd ht hr (by rw [h]; rfl)
    · intro h
      exact lsh_execute_builtin host fuel s t rest lsh_help ht hr (by rw [h]; rfl)
    · intro h
      exact lsh_execute_builtin host fuel s t rest lsh_exit ht hr (by rw [h]; rfl)
    · intro h
      exact lsh_execute_builtin host fuel s t rest lsh_history ht hr (by rw [h]; rfl)
    · intro h
      exact lsh_execute_builtin host fuel s t rest lsh_clear ht hr (by rw [h]; rfl)
    · intro h
      exact lsh_execute_builtin host fuel s t rest lsh_color ht hr (by rw [h]; rfl)
    · intro h
      exact lsh_execute_builtin host fuel s t rest lsh_alias ht hr (by rw [h]; rfl)
    · intro h
      rw [lsh_execute_plain host fuel s t rest ht hr, find_builtin_none _ _ _ h]
  · have hres : lsh_execute host (fuel + 1)
        { initial_shell with aliases := [{ name := "cd".toList, command := "dir".toList }] }
        ["cd".toList, "src".toList] =
      ({ initial_shell with
          aliases := [{ name := "cd".toList, command := "dir".toList }],
          out := [.system "dir src".toList] }, some 1) := by
      rw [lsh_execute_alias host fuel
        { initial_shell with aliases := [{ name := "cd".toList, command := "dir".toList }] }
        "cd".toList ["src".toList] "dir".toList (by decide) rfl]
      have hsplit : lsh_split_line (expanded_line "dir".toList ["src".toList]) =
          ["dir".toList, "src".toList] := by rfl
      rw [hsplit, lsh_execute_plain host fuel
        { initial_shell with aliases := [{ name := "cd".toList, command := "dir".toList }] }
        "dir".toList ["src".toList] (by decide) rfl]
      rfl
    rw [hres]
    exact ⟨rfl, by decide⟩

/-- The name `help` with and without an alias entry of that name. -/
theorem lsh_execute_alias_before_builtin_witness :
    lsh_execute ⟨fun _ => true⟩ 1
        { initial_shell with aliases := [{ name := "help".toList, command := "dir".toList }] }
        ["help".toList] =
      lsh_execute ⟨fun _ => true⟩ 0
        { initial_shell with aliases := [{ name := "help".toList, command := "dir".toList }] }
        (lsh_split_line (expanded_line "dir".toList [])) ∧
    lsh_execute ⟨fun _ => true⟩ 0 startup_shell ["help".toList] =
      ((lsh_help ⟨fun _ => true⟩ startup_shell ["help".toList]).1, some 1) :=
  ⟨(lsh_execute_alias_before_builtin ⟨fun _ => true⟩ 0
      { initial_shell with aliases := [{ name := "help".toList, command := "dir".toList }] }
      "help".toList [] (by decide)).1 (by decide),
   ((lsh_execute_alias_before_builtin ⟨fun _ => true⟩ 0 startup_shell "help".toList []
      (by decide)).2.2.1 (by decide)).2.1 rfl⟩

/-- The table entries `exit` and `help` in the initial state. -/
theorem continuation_signal_witness :
    (lsh_exit ⟨fun _ => true⟩ initial_shell ["exit".toList]).2 = 0 ∧
    (lsh_help ⟨fun _ => true⟩ initial_shell ["exit".toList]).2 = 1 :=
  ⟨((continuation_signal ⟨fun _ => true⟩ initial_shell ["exit".toList]).2.2.2.2.2.2.2.2.2
      "exit".toList lsh_exit rfl).1.mpr rfl,
   ((continuation_signal ⟨fun _ => true⟩ initial_shell ["exit".toList]).2.2.2.2.2.2.2.2.2
      "help".toList lsh_help rfl).2.mpr (by decide)⟩

end Shell_io
